import Mathlib

/-!
# Shallow embedding of `smartdownsample/core.py`

This file embeds the diversity-selection engine of the `smartdownsample`
repository (file `src/smartdownsample/core.py`) in Lean 4 and proves the
specification claims about it.

Modelling conventions:
* Binary fingerprints (`np.ndarray` of 0/1 produced by `_hash_to_binary_array`)
  are `List Bool`.
* Normalized Hamming distances (Python floats `np.sum(a != b) / len(a)`) are
  `ℚ`.  All distances compared by the engine share one denominator (the common
  fingerprint length), and for that length range float division is exact enough
  that the float comparisons coincide with the rational ones, so `ℚ` is a
  faithful model.
* `float('inf')` / the initial `-1` sentinel of the candidate scans live in
  `WithTop ℚ` (`⊤` = `inf`).
* Python's global `random` module is modelled by an explicit state `RngState`
  threaded into each call: `random.seed` replaces the state, `random.choice`
  is a deterministic function of the state and the list.  Only one draw is
  made per call, so the successor state is not needed.
* Python `int` arguments (`target_count`, `window_size`, `random_seed`) are
  `Int`.
* The candidate pool `remaining_indices` is a Python `set` of small ints,
  iterated in ascending numeric order (CPython's behaviour for such sets);
  it is modelled as a sorted `List Nat` with `List.erase` for removal.
* The cosmetic `show_progress` flag and the `tqdm` / `print` calls have no
  effect on the returned value and are omitted.
-/

/-- Model of the state of Python's `random` module. -/
abbrev RngState := Nat

/-- Model of `random.seed(n)`: the global state is replaced by a value
determined by the seed alone (the prior state is discarded). -/
def pySeed (seed : Int) : RngState := seed.natAbs

/-- Model of `random.choice(l)`: a deterministic function of the RNG state
and the list.  Python raises `IndexError` on an empty list; the model
returns `0` there (the development only invokes it on nonempty pools). -/
def pyChoice (s : RngState) (l : List Nat) : Nat := l.getD (s % l.length) 0

/-- Embeds `_hamming_distance(arr1, arr2)` from `core.py`:
`np.sum(arr1 != arr2) / len(arr1)`.  The element-wise comparison is taken
over aligned positions; the engine only ever calls this on two rows of one
homogeneous `np.ndarray`, so both arguments have equal length there. -/
def _hamming_distance (arr1 arr2 : List Bool) : ℚ :=
  mkRat ((arr1.zip arr2).countP fun p => p.1 != p.2) arr1.length

/-- The function `_hamming_distance` is literally the division written in the source
(`mkRat` is how `count / length` is spelled so that proofs can evaluate it). -/
theorem hamming_eq_div (arr1 arr2 : List Bool) :
    _hamming_distance arr1 arr2 =
      (((arr1.zip arr2).countP fun p => p.1 != p.2 : Nat) : ℚ) /
        (arr1.length : ℚ) := by
  simp [_hamming_distance, Rat.mkRat_eq_div]

/-- The inner accumulation `min_distance_to_window = min(...)` of both
selection loops: the minimum (starting from `float('inf')`, i.e. `⊤`) of the
Hamming distances between fingerprint `candidate` and the fingerprints of the
indices in `window`. -/
def minDistanceTo (hash_arrays : List (List Bool)) (candidate : Nat)
    (window : List Nat) : WithTop ℚ :=
  window.foldl
    (fun m w =>
      min m ((_hamming_distance (hash_arrays.getD candidate [])
        (hash_arrays.getD w []) : ℚ) : WithTop ℚ))
    ⊤

/-- The candidate scan shared by both selection loops:
starting from `max_min_distance` (`m`) and `best_candidate` (`b`), visit the
remaining candidates in order and update both whenever a candidate's score is
strictly greater than the current maximum
(`if min_distance > max_min_distance:` in `core.py`). -/
def scanCandidates (score : Nat → WithTop ℚ) :
    List Nat → WithTop ℚ → Option Nat → WithTop ℚ × Option Nat
  | [], m, b => (m, b)
  | c :: rest, m, b =>
    if m < score c then scanCandidates score rest (score c) (some c)
    else scanCandidates score rest m b

/-- One iteration of either selection loop: scan the remaining candidates
(with `max_min_distance = -1`, `best_candidate = None`), append the winner to
`selected_indices` and remove it from `remaining_indices`.  The `none` branch
is unreachable whenever the pool is nonempty (every score exceeds `-1`). -/
def selStep (score : List Nat → Nat → WithTop ℚ)
    (st : List Nat × List Nat) : List Nat × List Nat :=
  match (scanCandidates (score st.1) st.2 (((-1 : ℚ)) : WithTop ℚ) none).2 with
  | some c => (st.1 ++ [c], st.2.erase c)
  | none => st

/-- The loop `for _ in range(k):` around `selStep`. -/
def selLoop (score : List Nat → Nat → WithTop ℚ) :
    Nat → List Nat × List Nat → List Nat × List Nat
  | 0, st => st
  | k + 1, st => selLoop score k (selStep score st)

/-- The per-step score of `_exact_greedy_selection`: minimum distance of the
candidate to *every* already-selected index. -/
def exactScore (hash_arrays : List (List Bool))
    (selected : List Nat) (candidate : Nat) : WithTop ℚ :=
  minDistanceTo hash_arrays candidate selected

/-- The per-step score of `_rolling_window_selection`: minimum distance of the
candidate to the window
`selected_indices[max(0, len(selected_indices) - window_size):]`. -/
def rollingScore (hash_arrays : List (List Bool)) (window_size : Int)
    (selected : List Nat) (candidate : Nat) : WithTop ℚ :=
  minDistanceTo hash_arrays candidate
    (selected.drop (selected.length - window_size.toNat))

/-- Embeds `_exact_greedy_selection(hash_arrays, target_count, show_progress)` from
`core.py` (the cosmetic `show_progress` flag is dropped; the RNG state is the
explicit `rng`).  Returns `list(range(n_images))` when
`target_count >= n_images`; otherwise picks a random start index and runs the
greedy loop `target_count - 1` times. -/
def _exact_greedy_selection (hash_arrays : List (List Bool))
    (target_count : Int) (rng : RngState) : List Nat :=
  let n_images := hash_arrays.length
  if (n_images : Int) ≤ target_count then List.range n_images
  else
    let first_idx := pyChoice rng (List.range n_images)
    (selLoop (exactScore hash_arrays) (target_count - 1).toNat
      ([first_idx], (List.range n_images).erase first_idx)).1

/-- Embeds `_rolling_window_selection(hash_arrays, target_count, window_size,
show_progress)` from `core.py`, same conventions as
`_exact_greedy_selection`. -/
def _rolling_window_selection (hash_arrays : List (List Bool))
    (target_count : Int) (window_size : Int) (rng : RngState) : List Nat :=
  let n_images := hash_arrays.length
  if (n_images : Int) ≤ target_count then List.range n_images
  else
    let first_idx := pyChoice rng (List.range n_images)
    (selLoop (rollingScore hash_arrays window_size) (target_count - 1).toNat
      ([first_idx], (List.range n_images).erase first_idx)).1

/-!
## Path model

`_sort_paths_by_directory` converts each path to a `pathlib.Path` and sorts by
the key `(str(p.parent), p.name)`.  Relative POSIX paths are modelled on
`List Char`: `pathlib` splits on `/`, dropping empty and `"."` components.
Python compares the key strings lexicographically by code point, which is
`lexLt`/`lexLe` below on the underlying character lists.
-/

/-- Split a character list at every `'/'` (Python `s.split("/")`):
`"a//b"` ↦ `["a", "", "b"]`. -/
def splitSlash : List Char → List (List Char)
  | [] => [[]]
  | c :: rest =>
    if c = '/' then [] :: splitSlash rest
    else
      match splitSlash rest with
      | [] => [[c]]
      | g :: gs => (c :: g) :: gs

/-- Interleave `'/'` between components (Python `"/".join(...)`). -/
def joinSlash : List (List Char) → List Char
  | [] => []
  | [g] => g
  | g :: gs => g ++ '/' :: joinSlash gs

/-- The component list of `pathlib.PurePosixPath(s)` for a relative path `s`:
split on `/`, drop empty and `"."` components. -/
def parsePath (s : String) : List (List Char) :=
  (splitSlash s.data).filter fun comp => decide (comp ≠ [] ∧ comp ≠ ['.'])

/-- Model of `str(p)` for a relative `pathlib` path given by its components:
`"."` when there are none, otherwise the components joined with `/`. -/
def pathToString (comps : List (List Char)) : String :=
  if comps = [] then "." else String.mk (joinSlash comps)

/-- A component list that `pathlib` can produce: components are nonempty,
not `"."`, and contain no slash. -/
def NormalComps (comps : List (List Char)) : Prop :=
  ∀ comp ∈ comps, comp ≠ [] ∧ comp ≠ ['.'] ∧ '/' ∉ comp

instance : DecidablePred NormalComps := fun comps =>
  inferInstanceAs (Decidable (∀ comp ∈ comps, _))

/-- A parsed path: a component list together with its well-formedness. -/
def PyPath := {comps : List (List Char) // NormalComps comps}

/-- Model of `p.name`: the final component (empty for the path `"."`). -/
def pyName (p : PyPath) : List Char := p.1.getLastD []

/-- Model of `str(p.parent)`: the path string of all but the final component. -/
def pyParent (p : PyPath) : List Char := (pathToString p.1.dropLast).data

/-- Python's comparison of the sort keys `(str(p.parent), p.name)`:
lexicographic on the pair of strings, each string compared lexicographically
by code point (the `<`/`≤` of `List Char`). -/
def pathKeyLe (p q : PyPath) : Prop :=
  pyParent p < pyParent q ∨ (pyParent p = pyParent q ∧ pyName p ≤ pyName q)

instance pathKeyLeDec : DecidableRel pathKeyLe := fun p q =>
  inferInstanceAs (Decidable
    (pyParent p < pyParent q ∨
      (pyParent p = pyParent q ∧ pyName p ≤ pyName q)))

theorem splitSlash_ne_nil : ∀ l : List Char, splitSlash l ≠ [] := by
  intro l
  induction l with
  | nil => simp [splitSlash]
  | cons c rest ih =>
    unfold splitSlash
    by_cases hc : c = '/'
    · simp [hc]
    · rw [if_neg hc]
      rcases h : splitSlash rest with _ | ⟨g, gs⟩ <;> simp

theorem splitSlash_no_slash :
    ∀ l : List Char, ∀ comp ∈ splitSlash l, '/' ∉ comp := by
  intro l
  induction l with
  | nil =>
    intro comp hm
    have hcomp : comp = [] := by simpa [splitSlash] using hm
    simp [hcomp]
  | cons c rest ih =>
    intro comp hm
    unfold splitSlash at hm
    by_cases hc : c = '/'
    · rw [if_pos hc] at hm
      rcases List.mem_cons.mp hm with h | h
      · simp [h]
      · exact ih comp h
    · rw [if_neg hc] at hm
      obtain ⟨g, gs, hsp⟩ : ∃ g gs, splitSlash rest = g :: gs := by
        rcases h : splitSlash rest with _ | ⟨g, gs⟩
        · exact absurd h (splitSlash_ne_nil rest)
        · exact ⟨g, gs, rfl⟩
      rw [hsp] at hm
      rcases List.mem_cons.mp hm with h | h
      · subst h
        intro hmem
        rcases List.mem_cons.mp hmem with h | h
        · exact hc h.symm
        · exact ih g (by rw [hsp]; exact List.mem_cons_self g gs) h
      · exact ih comp (by rw [hsp]; exact List.mem_cons_of_mem g h)

theorem parsePath_normal (s : String) : NormalComps (parsePath s) := by
  intro comp hm
  rcases List.mem_filter.mp hm with ⟨hmem, hpred⟩
  rcases of_decide_eq_true hpred with ⟨h1, h2⟩
  exact ⟨h1, h2, splitSlash_no_slash s.data comp hmem⟩

/-- Model of `Path(p)` for an input identifier `p` (a relative POSIX path string). -/
def parsePyPath (s : String) : PyPath := ⟨parsePath s, parsePath_normal s⟩

/-- Embeds `_sort_paths_by_directory(image_paths)` from `core.py`:
`sorted([Path(p) for p in image_paths], key=lambda p: (str(p.parent), p.name))`
rendered back to strings.  Python's `sorted` is a stable comparison sort; any
sort by the same total preorder yields the same list here because key-equal
parsed paths are equal (proved below). -/
def _sort_paths_by_directory (image_paths : List String) : List String :=
  ((image_paths.map parsePyPath).insertionSort pathKeyLe).map
    fun p => pathToString p.1

/-!
## Orchestration

The perceptual-hash producer (`PIL.Image.open` + `imagehash.phash` composed
with `_hash_to_binary_array`) is an external collaborator; it is abstracted as
a parameter `phashFn : String → Option (List Bool)` where `none` models an
image that fails to load (the `except` branch of `_calculate_hashes`).
`np.array(list_of_rows)` is modelled by `npArray2D`, which refuses a ragged
nested list (numpy's `ValueError` for an inhomogeneous shape) and otherwise
returns the rows unchanged.  Python exceptions escaping a call are modelled by
`Except.error`.
-/

/-- Embeds `_calculate_hashes(image_paths, show_progress)` from `core.py`: hash each
path in order, skipping the ones the external hasher fails on, returning the
parallel lists `(hashes, valid_paths)`.  The paths are already strings, so the
source's `str(path)` is the identity. -/
def _calculate_hashes (phashFn : String → Option (List Bool)) :
    List String → List (List Bool) × List String
  | [] => ([], [])
  | path :: rest =>
    let r := _calculate_hashes phashFn rest
    match phashFn path with
    | some h => (h :: r.1, path :: r.2)
    | none => r

/-- Model of `np.array([...])` on a nested list of rows: an inhomogeneous
(ragged) input raises `ValueError`; otherwise the 2-D array holds exactly the
given rows. -/
def npArray2D (rows : List (List Bool)) : Except String (List (List Bool)) :=
  if rows.all fun r => r.length = (rows.headD []).length then Except.ok rows
  else Except.error "ValueError: inhomogeneous shape"

/-- Embeds `_select_distinct_rolling_window(image_paths, target_count, window_size,
random_seed, show_progress)` from `core.py`.  `rng0` is the state of the
global `random` module when the call starts; the body begins with
`random.seed(random_seed)` (and `np.random.seed`, whose stream is never
consumed), discarding `rng0`. -/
def _select_distinct_rolling_window (phashFn : String → Option (List Bool))
    (image_paths : List String) (target_count : Int) (window_size : Int)
    (random_seed : Int) (rng0 : RngState) : Except String (List String) :=
  let _ := rng0
  let rng := pySeed random_seed
  if (image_paths.length : Int) ≤ target_count then Except.ok image_paths
  else
    let sorted_paths := _sort_paths_by_directory image_paths
    let hv := _calculate_hashes phashFn sorted_paths
    if (hv.2.length : Int) ≤ target_count then Except.ok hv.2
    else
      match npArray2D hv.1 with
      | Except.error e => Except.error e
      | Except.ok hash_arrays =>
        let selected_indices :=
          _rolling_window_selection hash_arrays target_count window_size rng
        Except.ok (selected_indices.map fun i => hv.2.getD i "")

/-- Embeds `_select_distinct_exact(image_paths, target_count, similarity_threshold,
random_seed, show_progress)` from `core.py`.  `similarity_threshold` is
accepted and never used, exactly as in the source. -/
def _select_distinct_exact (phashFn : String → Option (List Bool))
    (image_paths : List String) (target_count : Int)
    (similarity_threshold : ℚ) (random_seed : Int) (rng0 : RngState) :
    Except String (List String) :=
  let _ := similarity_threshold
  let _ := rng0
  let rng := pySeed random_seed
  if (image_paths.length : Int) ≤ target_count then Except.ok image_paths
  else
    let hv := _calculate_hashes phashFn image_paths
    if (hv.2.length : Int) ≤ target_count then Except.ok hv.2
    else
      match npArray2D hv.1 with
      | Except.error e => Except.error e
      | Except.ok hash_arrays =>
        let selected_indices :=
          _exact_greedy_selection hash_arrays target_count rng
        Except.ok (selected_indices.map fun i => hv.2.getD i "")

/-- Embeds `select_distinct(image_paths, target_count, method, window_size,
similarity_threshold, random_seed, show_progress)` from `core.py`: dispatch on
the method string, raising `ValueError` for an unknown method. -/
def select_distinct (phashFn : String → Option (List Bool))
    (image_paths : List String) (target_count : Int) (method : String)
    (window_size : Int) (similarity_threshold : ℚ) (random_seed : Int)
    (rng0 : RngState) : Except String (List String) :=
  if method = "rolling_window" then
    _select_distinct_rolling_window phashFn image_paths target_count
      window_size random_seed rng0
  else if method = "exact" then
    _select_distinct_exact phashFn image_paths target_count
      similarity_threshold random_seed rng0
  else Except.error "ValueError: Unknown method"

/-!
## Properties of the candidate scan
-/

theorem scanCandidates_no_update (score : Nat → WithTop ℚ) :
    ∀ (l : List Nat) (m : WithTop ℚ) (b : Option Nat),
      (∀ c ∈ l, ¬ m < score c) → scanCandidates score l m b = (m, b) := by
  intro l
  induction l with
  | nil => intro m b _; rfl
  | cons c rest ih =>
    intro m b h
    unfold scanCandidates
    rw [if_neg (h c (List.mem_cons_self c rest))]
    exact ih m b fun r hr => h r (List.mem_cons_of_mem c hr)

/-- The scan starting from `max_min_distance = m` returns the first candidate
(in pool-iteration order) attaining the maximal score, provided some candidate
beats `m`. -/
theorem scanCandidates_spec (score : Nat → WithTop ℚ) :
    ∀ (l : List Nat) (m : WithTop ℚ) (b : Option Nat),
      (∃ c ∈ l, m < score c) →
      ∃ c l₁ l₂, l = l₁ ++ c :: l₂ ∧
        scanCandidates score l m b = (score c, some c) ∧
        (∀ r ∈ l, score r ≤ score c) ∧
        (∀ r ∈ l₁, score r < score c) ∧ m < score c := by
  intro l
  induction l with
  | nil => intro m b h; simp at h
  | cons c rest ih =>
    intro m b h
    by_cases hc : m < score c
    · by_cases hrest : ∃ r ∈ rest, score c < score r
      · obtain ⟨c', l₁, l₂, heq, hscan, hub, hfirst, hlt⟩ :=
          ih (score c) (some c) hrest
        refine ⟨c', c :: l₁, l₂, by simp [heq], ?_, ?_, ?_, lt_trans hc hlt⟩
        · unfold scanCandidates
          rw [if_pos hc]
          exact hscan
        · intro r hr
          rcases List.mem_cons.mp hr with h | h
          · exact h ▸ le_of_lt hlt
          · exact hub r h
        · intro r hr
          rcases List.mem_cons.mp hr with h | h
          · exact h ▸ hlt
          · exact hfirst r h
      · push_neg at hrest
        refine ⟨c, [], rest, rfl, ?_, ?_, by simp, hc⟩
        · unfold scanCandidates
          rw [if_pos hc]
          exact scanCandidates_no_update score rest (score c) (some c)
            fun r hr => not_lt.mpr (hrest r hr)
        · intro r hr
          rcases List.mem_cons.mp hr with h | h
          · exact h ▸ le_refl _
          · exact hrest r h
    · have hex : ∃ r ∈ rest, m < score r := by
        obtain ⟨r, hr, hlt⟩ := h
        rcases List.mem_cons.mp hr with h' | h'
        · exact absurd (h' ▸ hlt) hc
        · exact ⟨r, h', hlt⟩
      obtain ⟨c', l₁, l₂, heq, hscan, hub, hfirst, hlt⟩ := ih m b hex
      refine ⟨c', c :: l₁, l₂, by simp [heq], ?_, ?_, ?_, hlt⟩
      · unfold scanCandidates
        rw [if_neg hc]
        exact hscan
      · intro r hr
        rcases List.mem_cons.mp hr with h' | h'
        · exact h' ▸ le_trans (not_lt.mp hc) (le_of_lt hlt)
        · exact hub r h'
      · intro r hr
        rcases List.mem_cons.mp hr with h' | h'
        · exact h' ▸ lt_of_le_of_lt (not_lt.mp hc) hlt
        · exact hfirst r h'

/-!
## Properties of `minDistanceTo`
-/

theorem hamming_nonneg (a b : List Bool) : 0 ≤ _hamming_distance a b := by
  rw [hamming_eq_div]
  exact div_nonneg (Nat.cast_nonneg _) (Nat.cast_nonneg _)

theorem foldl_min_le_acc (g : Nat → WithTop ℚ) :
    ∀ (w : List Nat) (acc : WithTop ℚ),
      w.foldl (fun m x => min m (g x)) acc ≤ acc := by
  intro w
  induction w with
  | nil => intro acc; exact le_refl _
  | cons x rest ih =>
    intro acc
    exact le_trans (ih (min acc (g x))) (min_le_left _ _)

theorem foldl_min_le_mem (g : Nat → WithTop ℚ) :
    ∀ (w : List Nat) (acc : WithTop ℚ) (s : Nat), s ∈ w →
      w.foldl (fun m x => min m (g x)) acc ≤ g s := by
  intro w
  induction w with
  | nil => intro acc s hs; simp at hs
  | cons x rest ih =>
    intro acc s hs
    rcases List.mem_cons.mp hs with h | h
    · subst h
      exact le_trans (foldl_min_le_acc g rest (min acc (g s)))
        (min_le_right _ _)
    · exact ih (min acc (g x)) s h

theorem foldl_min_acc_or_mem (g : Nat → WithTop ℚ) :
    ∀ (w : List Nat) (acc : WithTop ℚ),
      w.foldl (fun m x => min m (g x)) acc = acc ∨
        ∃ s ∈ w, w.foldl (fun m x => min m (g x)) acc = g s := by
  intro w
  induction w with
  | nil => intro acc; exact Or.inl rfl
  | cons x rest ih =>
    intro acc
    rcases ih (min acc (g x)) with h | ⟨s, hs, h⟩
    · rcases min_cases acc (g x) with ⟨hm, _⟩ | ⟨hm, _⟩
      · exact Or.inl (by rw [List.foldl_cons, h, hm])
      · exact Or.inr ⟨x, List.mem_cons_self x rest,
          by rw [List.foldl_cons, h, hm]⟩
    · exact Or.inr ⟨s, List.mem_cons_of_mem x hs, h⟩

theorem minDistanceTo_nonneg (fps : List (List Bool)) (c : Nat)
    (w : List Nat) : 0 ≤ minDistanceTo fps c w := by
  unfold minDistanceTo
  rcases foldl_min_acc_or_mem
      (fun x => ((_hamming_distance (fps.getD c []) (fps.getD x []) : ℚ) :
        WithTop ℚ)) w ⊤ with h | ⟨s, _, h⟩
  · rw [h]; exact le_top
  · rw [h]
    exact_mod_cast hamming_nonneg (fps.getD c []) (fps.getD s [])

theorem neg_one_lt_minDistanceTo (fps : List (List Bool)) (c : Nat)
    (w : List Nat) : (((-1 : ℚ)) : WithTop ℚ) < minDistanceTo fps c w :=
  lt_of_lt_of_le (by exact_mod_cast (by norm_num : (-1 : ℚ) < 0))
    (minDistanceTo_nonneg fps c w)

theorem minDistanceTo_le (fps : List (List Bool)) (c : Nat) (w : List Nat)
    (s : Nat) (hs : s ∈ w) :
    minDistanceTo fps c w ≤
      ((_hamming_distance (fps.getD c []) (fps.getD s []) : ℚ) : WithTop ℚ) :=
  foldl_min_le_mem _ w ⊤ s hs

theorem minDistanceTo_attained (fps : List (List Bool)) (c : Nat)
    (w : List Nat) (hw : w ≠ []) :
    ∃ s ∈ w, minDistanceTo fps c w =
      ((_hamming_distance (fps.getD c []) (fps.getD s []) : ℚ) : WithTop ℚ) := by
  rcases foldl_min_acc_or_mem
      (fun x => ((_hamming_distance (fps.getD c []) (fps.getD x []) : ℚ) :
        WithTop ℚ)) w ⊤ with h | ⟨s, hs, h⟩
  · obtain ⟨x, hx⟩ := List.exists_mem_of_ne_nil w hw
    refine ⟨x, hx, ?_⟩
    have htop : minDistanceTo fps c w = ⊤ := h
    have hle := minDistanceTo_le fps c w x hx
    rw [htop] at hle ⊢
    exact (top_le_iff.mp hle).symm
  · exact ⟨s, hs, h⟩

/-!
## The selection step and loop
-/

/-- The scan inside a selection step always elects a candidate: it appends the
first maximizer of the step's score to `selected_indices` and deletes it from
the pool. -/
theorem selStep_spec (score : List Nat → Nat → WithTop ℚ)
    (hpos : ∀ sel c, (((-1 : ℚ)) : WithTop ℚ) < score sel c)
    (sel rem : List Nat) (hrem : rem ≠ []) :
    ∃ c l₁ l₂, rem = l₁ ++ c :: l₂ ∧
      selStep score (sel, rem) = (sel ++ [c], rem.erase c) ∧
      (∀ r ∈ rem, score sel r ≤ score sel c) ∧
      (∀ r ∈ l₁, score sel r < score sel c) := by
  obtain ⟨x, hx⟩ := List.exists_mem_of_ne_nil rem hrem
  obtain ⟨c, l₁, l₂, heq, hscan, hub, hfirst, _⟩ :=
    scanCandidates_spec (score sel) rem (((-1 : ℚ)) : WithTop ℚ) none
      ⟨x, hx, hpos sel x⟩
  refine ⟨c, l₁, l₂, heq, ?_, hub, hfirst⟩
  unfold selStep
  rw [hscan]

/-- The loop invariant of both selection loops. -/
def SelInv (n : Nat) (st : List Nat × List Nat) : Prop :=
  st.1.Nodup ∧ st.2.Nodup ∧ (∀ i ∈ st.1, i < n) ∧ (∀ i ∈ st.2, i < n) ∧
    (∀ i ∈ st.1, i ∉ st.2) ∧ st.1.length + st.2.length = n

theorem selStep_inv (score : List Nat → Nat → WithTop ℚ)
    (hpos : ∀ sel c, (((-1 : ℚ)) : WithTop ℚ) < score sel c)
    (n : Nat) (sel rem : List Nat) (hrem : rem ≠ [])
    (hinv : SelInv n (sel, rem)) :
    SelInv n (selStep score (sel, rem)) ∧
      (selStep score (sel, rem)).1.length = sel.length + 1 := by
  obtain ⟨hn1, hn2, hb1, hb2, hdisj, hlen⟩ := hinv
  obtain ⟨c, l₁, l₂, heq, hstep, _, _⟩ := selStep_spec score hpos sel rem hrem
  have hcrem : c ∈ rem := by simp [heq]
  have hcsel : c ∉ sel := fun h => hdisj c h hcrem
  rw [hstep]
  refine ⟨⟨?_, hn2.erase c, ?_, ?_, ?_, ?_⟩, by simp⟩
  · rw [List.nodup_append]
    exact ⟨hn1, List.nodup_singleton c, by
      intro a ha hb
      rw [List.mem_singleton] at hb
      exact hcsel (hb ▸ ha)⟩
  · intro i hi
    rcases List.mem_append.mp hi with h | h
    · exact hb1 i h
    · rw [List.mem_singleton] at h
      exact h ▸ hb2 c hcrem
  · intro i hi
    exact hb2 i (List.mem_of_mem_erase hi)
  · intro i hi hie
    rcases List.mem_append.mp hi with h | h
    · exact hdisj i h (List.mem_of_mem_erase hie)
    · rw [List.mem_singleton] at h
      subst h
      exact absurd ((hn2.mem_erase_iff).mp hie).1 (by simp)
  · have hlen2 : sel.length + rem.length = n := hlen
    have := List.length_erase_of_mem hcrem
    have hpos' : 0 < rem.length := List.length_pos.mpr hrem
    simp only [List.length_append, List.length_singleton, this]
    omega

theorem selLoop_inv (score : List Nat → Nat → WithTop ℚ)
    (hpos : ∀ sel c, (((-1 : ℚ)) : WithTop ℚ) < score sel c) (n : Nat) :
    ∀ (k : Nat) (st : List Nat × List Nat), SelInv n st →
      st.1.length + k ≤ n →
      SelInv n (selLoop score k st) ∧
        (selLoop score k st).1.length = st.1.length + k := by
  intro k
  induction k with
  | zero => intro st hinv _; exact ⟨hinv, by simp [selLoop]⟩
  | succ k ih =>
    intro st hinv hle
    have hlen := hinv.2.2.2.2.2
    have hrem : st.2 ≠ [] := by
      intro h
      rw [h] at hlen
      simp at hlen
      omega
    obtain ⟨hinv', hlen'⟩ :=
      selStep_inv score hpos n st.1 st.2 hrem
        (by obtain ⟨s1, s2⟩ := st; exact hinv)
    have hstep : selStep score (st.1, st.2) = selStep score st := by
      obtain ⟨s1, s2⟩ := st; rfl
    rw [hstep] at hinv' hlen'
    have : selLoop score (k + 1) st = selLoop score k (selStep score st) :=
      rfl
    rw [this]
    obtain ⟨hi, hl⟩ := ih (selStep score st) hinv' (by omega)
    exact ⟨hi, by omega⟩

/-- Both selection engines share this shape once the `target_count >=
n_images` guard has failed: a seeded random start index followed by
`target_count - 1` greedy steps.  The run returns `1 + (target - 1).toNat`
pairwise-distinct indices, all below `n`. -/
theorem engine_run_bounds (score : List Nat → Nat → WithTop ℚ)
    (hpos : ∀ sel c, (((-1 : ℚ)) : WithTop ℚ) < score sel c)
    (n : Nat) (target : Int) (rng : RngState)
    (hn : 0 < n) (h2 : target < (n : Int)) :
    (selLoop score (target - 1).toNat
        ([pyChoice rng (List.range n)],
          (List.range n).erase (pyChoice rng (List.range n)))).1.length =
        1 + (target - 1).toNat ∧
      (selLoop score (target - 1).toNat
        ([pyChoice rng (List.range n)],
          (List.range n).erase (pyChoice rng (List.range n)))).1.Nodup ∧
      ∀ i ∈ (selLoop score (target - 1).toNat
        ([pyChoice rng (List.range n)],
          (List.range n).erase (pyChoice rng (List.range n)))).1, i < n := by
  set first := pyChoice rng (List.range n) with hfirstdef
  have hfirst_lt : first < n := by
    rw [hfirstdef]
    unfold pyChoice
    rw [List.length_range]
    have hmod : rng % n < n := Nat.mod_lt _ hn
    rw [List.getD_eq_getElem _ _ (by rwa [List.length_range])]
    simpa using hmod
  have hmem : first ∈ List.range n := List.mem_range.mpr hfirst_lt
  have hinit : SelInv n ([first], (List.range n).erase first) := by
    refine ⟨List.nodup_singleton first, (List.nodup_range n).erase first,
      ?_, ?_, ?_, ?_⟩
    · intro i hi
      rw [List.mem_singleton] at hi
      exact hi ▸ hfirst_lt
    · intro i hi
      exact List.mem_range.mp (List.mem_of_mem_erase hi)
    · intro i hi
      rw [List.mem_singleton] at hi
      subst hi
      intro hie
      exact absurd (((List.nodup_range n).mem_erase_iff).mp hie).1 (by simp)
    · have := List.length_erase_of_mem hmem
      rw [List.length_singleton, this, List.length_range]
      omega
  obtain ⟨hinv, hlen⟩ := selLoop_inv score hpos n (target - 1).toNat
    ([first], (List.range n).erase first) hinit (by simp; omega)
  refine ⟨?_, hinv.1, hinv.2.2.1⟩
  rw [hlen]
  simp

/-- Claim C1. For every fingerprint array of `M` elements, every target count `K`
with `M > K ≥ 1`, and every seed (i.e. every RNG state reached by seeding),
the selection in both exact and rolling-window modes returns exactly `K`
indices, pairwise distinct, all drawn from `0..M-1`.
-/
theorem C1_selection_count_distinct_range
    (fps : List (List Bool)) (target_count window_size : Int) (rng : RngState)
    (hK : 1 ≤ target_count) (hM : target_count < (fps.length : Int)) :
    ((_exact_greedy_selection fps target_count rng).length =
        target_count.toNat ∧
      (_exact_greedy_selection fps target_count rng).Nodup ∧
      ∀ i ∈ _exact_greedy_selection fps target_count rng, i < fps.length) ∧
    ((_rolling_window_selection fps target_count window_size rng).length =
        target_count.toNat ∧
      (_rolling_window_selection fps target_count window_size rng).Nodup ∧
      ∀ i ∈ _rolling_window_selection fps target_count window_size rng,
        i < fps.length) := by
  have hneg : ¬ ((fps.length : Int) ≤ target_count) := not_le.mpr hM
  have hn : 0 < fps.length := by omega
  have htoNat : 1 + (target_count - 1).toNat = target_count.toNat := by omega
  constructor
  · have h := engine_run_bounds (exactScore fps)
      (fun sel c => neg_one_lt_minDistanceTo fps c sel)
      fps.length target_count rng hn hM
    rw [htoNat] at h
    simp only [_exact_greedy_selection]
    rw [if_neg hneg]
    exact h
  · have h := engine_run_bounds (rollingScore fps window_size)
      (fun sel c => neg_one_lt_minDistanceTo fps c
        (sel.drop (sel.length - window_size.toNat)))
      fps.length target_count rng hn hM
    rw [htoNat] at h
    simp only [_rolling_window_selection]
    rw [if_neg hneg]
    exact h

/-- Closed instantiation of `C1_selection_count_distinct_range`. -/
theorem C1_selection_count_distinct_range_witness :
    ((_exact_greedy_selection [[true], [false], [true]] 2 0).length =
        (2 : Int).toNat ∧
      (_exact_greedy_selection [[true], [false], [true]] 2 0).Nodup ∧
      ∀ i ∈ _exact_greedy_selection [[true], [false], [true]] 2 0,
        i < [[true], [false], [true]].length) ∧
    ((_rolling_window_selection [[true], [false], [true]] 2 1 0).length =
        (2 : Int).toNat ∧
      (_rolling_window_selection [[true], [false], [true]] 2 1 0).Nodup ∧
      ∀ i ∈ _rolling_window_selection [[true], [false], [true]] 2 1 0,
        i < [[true], [false], [true]].length) :=
  C1_selection_count_distinct_range [[true], [false], [true]] 2 1 0
    (by norm_num) (by norm_num)

instance {ε α : Type} [DecidableEq ε] [DecidableEq α] :
    DecidableEq (Except ε α) := fun a b =>
  match a, b with
  | .ok x, .ok y => decidable_of_iff (x = y) (by simp)
  | .error x, .error y => decidable_of_iff (x = y) (by simp)
  | .ok _, .error _ => isFalse (by simp)
  | .error _, .ok _ => isFalse (by simp)

/-- A concrete stand-in for the external hasher, used in closed
instantiations: fingerprint `[1]` for `"d/a.jpg"` and `[0]` otherwise. -/
def demoHash : String → Option (List Bool) :=
  fun p => some [decide (p = "d/a.jpg")]

/-!
## Claims C4 and C5: the greedy step
-/

/-- Claim C4. In exact mode, at every selection step the index appended to
`selected_indices` is a remaining candidate whose minimum Hamming distance to
the entire already-selected set is maximal among all remaining candidates,
ties broken by the first candidate encountered (in pool-scan order) that
attains a strictly larger minimum distance.  The last two conjuncts identify
the score as the true minimum over the selected set.
-/
theorem C4_exact_step_farthest_point (fps : List (List Bool))
    (sel rem : List Nat) (hrem : rem ≠ []) :
    ∃ c l₁ l₂, rem = l₁ ++ c :: l₂ ∧
      selStep (exactScore fps) (sel, rem) = (sel ++ [c], rem.erase c) ∧
      (∀ r ∈ rem, minDistanceTo fps r sel ≤ minDistanceTo fps c sel) ∧
      (∀ r ∈ l₁, minDistanceTo fps r sel < minDistanceTo fps c sel) ∧
      (∀ s ∈ sel, minDistanceTo fps c sel ≤
        ((_hamming_distance (fps.getD c []) (fps.getD s []) : ℚ) :
          WithTop ℚ)) ∧
      (sel ≠ [] → ∃ s ∈ sel, minDistanceTo fps c sel =
        ((_hamming_distance (fps.getD c []) (fps.getD s []) : ℚ) :
          WithTop ℚ)) := by
  obtain ⟨c, l₁, l₂, heq, hstep, hub, hfirst⟩ :=
    selStep_spec (exactScore fps)
      (fun sel' c' => neg_one_lt_minDistanceTo fps c' sel') sel rem hrem
  exact ⟨c, l₁, l₂, heq, hstep, hub, hfirst,
    fun s hs => minDistanceTo_le fps c sel s hs,
    fun hne => minDistanceTo_attained fps c sel hne⟩

/-- Closed instantiation of `C4_exact_step_farthest_point`. -/
theorem C4_exact_step_farthest_point_witness :
    ∃ c l₁ l₂, [1, 2] = l₁ ++ c :: l₂ ∧
      selStep (exactScore [[true], [false], [true]]) ([0], [1, 2]) =
        ([0] ++ [c], [1, 2].erase c) ∧
      (∀ r ∈ [1, 2], minDistanceTo [[true], [false], [true]] r [0] ≤
        minDistanceTo [[true], [false], [true]] c [0]) ∧
      (∀ r ∈ l₁, minDistanceTo [[true], [false], [true]] r [0] <
        minDistanceTo [[true], [false], [true]] c [0]) ∧
      (∀ s ∈ [0], minDistanceTo [[true], [false], [true]] c [0] ≤
        ((_hamming_distance ([[true], [false], [true]].getD c [])
          ([[true], [false], [true]].getD s []) : ℚ) : WithTop ℚ)) ∧
      (([0] : List Nat) ≠ [] → ∃ s ∈ [0],
        minDistanceTo [[true], [false], [true]] c [0] =
        ((_hamming_distance ([[true], [false], [true]].getD c [])
          ([[true], [false], [true]].getD s []) : ℚ) : WithTop ℚ)) :=
  C4_exact_step_farthest_point [[true], [false], [true]] [0] [1, 2]
    (by decide)

/-- Claim C5. In rolling-window mode, at every selection step the comparison window
is exactly the trailing `min(W, |selected|)` elements of the selected
sequence — the whole selected sequence while it is shorter than `W`, and the
most recent `W` selections thereafter — and the appended index maximizes the
minimum distance to that window only, with the same first-encountered
tie-break.
-/
theorem C5_rolling_step_window (fps : List (List Bool)) (window_size : Int)
    (sel rem : List Nat) (hrem : rem ≠ []) :
    (sel.drop (sel.length - window_size.toNat)).length =
        min window_size.toNat sel.length ∧
      (sel.drop (sel.length - window_size.toNat)) <:+ sel ∧
      (sel.length ≤ window_size.toNat →
        sel.drop (sel.length - window_size.toNat) = sel) ∧
      ∃ c l₁ l₂, rem = l₁ ++ c :: l₂ ∧
        selStep (rollingScore fps window_size) (sel, rem) =
          (sel ++ [c], rem.erase c) ∧
        (∀ r ∈ rem,
          minDistanceTo fps r (sel.drop (sel.length - window_size.toNat)) ≤
            minDistanceTo fps c (sel.drop (sel.length - window_size.toNat))) ∧
        (∀ r ∈ l₁,
          minDistanceTo fps r (sel.drop (sel.length - window_size.toNat)) <
            minDistanceTo fps c (sel.drop (sel.length - window_size.toNat))) := by
  refine ⟨by rw [List.length_drop]; omega, List.drop_suffix _ _, ?_, ?_⟩
  · intro h
    rw [Nat.sub_eq_zero_of_le h, List.drop_zero]
  · obtain ⟨c, l₁, l₂, heq, hstep, hub, hfirst⟩ :=
      selStep_spec (rollingScore fps window_size)
        (fun sel' c' => neg_one_lt_minDistanceTo fps c'
          (sel'.drop (sel'.length - window_size.toNat))) sel rem hrem
    exact ⟨c, l₁, l₂, heq, hstep, hub, hfirst⟩

/-- Closed instantiation of `C5_rolling_step_window`. -/
theorem C5_rolling_step_window_witness :
    (([0, 1].drop ([0, 1].length - (1 : Int).toNat)).length =
        min (1 : Int).toNat [0, 1].length ∧
      ([0, 1].drop ([0, 1].length - (1 : Int).toNat)) <:+ [0, 1] ∧
      ([0, 1].length ≤ (1 : Int).toNat →
        [0, 1].drop ([0, 1].length - (1 : Int).toNat) = [0, 1]) ∧
      ∃ c l₁ l₂, [2, 3] = l₁ ++ c :: l₂ ∧
        selStep (rollingScore [[true], [false], [true], [false]] 1)
          ([0, 1], [2, 3]) = ([0, 1] ++ [c], [2, 3].erase c) ∧
        (∀ r ∈ [2, 3],
          minDistanceTo [[true], [false], [true], [false]] r
            ([0, 1].drop ([0, 1].length - (1 : Int).toNat)) ≤
          minDistanceTo [[true], [false], [true], [false]] c
            ([0, 1].drop ([0, 1].length - (1 : Int).toNat))) ∧
        (∀ r ∈ l₁,
          minDistanceTo [[true], [false], [true], [false]] r
            ([0, 1].drop ([0, 1].length - (1 : Int).toNat)) <
          minDistanceTo [[true], [false], [true], [false]] c
            ([0, 1].drop ([0, 1].length - (1 : Int).toNat)))) :=
  C5_rolling_step_window [[true], [false], [true], [false]] 1 [0, 1] [2, 3]
    (by decide)

/-!
## Claims C2, C3: short-circuit and determinism
-/

/-- Claim C2. For every input list of `M` identifiers and every target count `K`
with `M ≤ K`, the entry point (in both modes) short-circuits and returns the
input list itself: length `M`, same elements, original order.
-/
theorem C2_short_circuit_returns_all (phashFn : String → Option (List Bool))
    (image_paths : List String) (target_count window_size : Int)
    (similarity_threshold : ℚ) (random_seed : Int) (rng0 : RngState)
    (h : (image_paths.length : Int) ≤ target_count) :
    select_distinct phashFn image_paths target_count "rolling_window"
        window_size similarity_threshold random_seed rng0 =
      Except.ok image_paths ∧
    select_distinct phashFn image_paths target_count "exact"
        window_size similarity_threshold random_seed rng0 =
      Except.ok image_paths := by
  constructor
  · show _select_distinct_rolling_window phashFn image_paths target_count
      window_size random_seed rng0 = Except.ok image_paths
    unfold _select_distinct_rolling_window
    rw [if_pos h]
  · show _select_distinct_exact phashFn image_paths target_count
      similarity_threshold random_seed rng0 = Except.ok image_paths
    unfold _select_distinct_exact
    rw [if_pos h]

/-- Closed instantiation of `C2_short_circuit_returns_all`. -/
theorem C2_short_circuit_returns_all_witness :
    select_distinct demoHash ["b.jpg", "a.jpg"] 5 "rolling_window"
        100 (mkRat 17 20) 42 0 = Except.ok ["b.jpg", "a.jpg"] ∧
    select_distinct demoHash ["b.jpg", "a.jpg"] 5 "exact"
        100 (mkRat 17 20) 42 0 = Except.ok ["b.jpg", "a.jpg"] :=
  C2_short_circuit_returns_all demoHash ["b.jpg", "a.jpg"] 5 100
    (mkRat 17 20) 42 0 (by norm_num)

/-- Claim C3. Two-run determinism: the random source is seeded from `random_seed`
before the first (and only) random draw, so two runs on the same fingerprints
with the same seed, mode and window size produce identical output sequences
even when the global RNG state differed before the two calls (`rng0` vs
`rng1`).
-/
theorem C3_two_run_determinism (phashFn : String → Option (List Bool))
    (image_paths : List String) (target_count : Int) (method : String)
    (window_size : Int) (similarity_threshold : ℚ) (random_seed : Int)
    (rng0 rng1 : RngState) :
    select_distinct phashFn image_paths target_count method window_size
        similarity_threshold random_seed rng0 =
      select_distinct phashFn image_paths target_count method window_size
        similarity_threshold random_seed rng1 := rfl

/-!
## Claim C6: input validation (corrected)
-/

/-- A hash producer mapping `"a"` to `[1]` and anything else to `[0]`. -/
def hashA : String → Option (List Bool) := fun p => some [decide (p = "a")]

/-- Claim C6, counterexample. A call with a non-positive target count does *not*
fail: with three inputs and `target_count = 0` the exact mode hashes,
selects and returns one path.  A call with a non-positive window size does
not fail either: rolling-window mode with `window_size = 0` returns a
two-element selection.  Only the unknown-method case errors.
-/
theorem C6_no_validation_counterexample :
    select_distinct hashA ["a", "b", "c"] 0 "exact" 100 (mkRat 17 20) 42 0 =
      Except.ok ["a"] ∧
    select_distinct hashA ["a", "b", "c"] 2 "rolling_window" 0 (mkRat 17 20)
      42 0 = Except.ok ["a", "b"] := by decide

/-- Claim C6, amended. An unknown algorithm mode fails immediately with an error
(before any hashing), for every input.  Non-positive target counts and window
sizes are *not* validated: with a non-positive target and a nonempty
fingerprint pool both engines still run their loop zero times after the
random start pick and return exactly one index.
-/
theorem C6_amended_only_method_validated
    (phashFn : String → Option (List Bool)) (image_paths : List String)
    (target_count window_size : Int) (similarity_threshold : ℚ)
    (random_seed : Int) (rng0 : RngState) (method : String)
    (hm1 : method ≠ "rolling_window") (hm2 : method ≠ "exact") :
    select_distinct phashFn image_paths target_count method window_size
        similarity_threshold random_seed rng0 =
      Except.error "ValueError: Unknown method" ∧
    ∀ (fps : List (List Bool)) (rng : RngState), target_count ≤ 0 →
      0 < fps.length →
      (_exact_greedy_selection fps target_count rng).length = 1 ∧
      (_rolling_window_selection fps target_count window_size rng).length =
        1 := by
  constructor
  · unfold select_distinct
    rw [if_neg hm1, if_neg hm2]
  · intro fps rng ht hn
    have hneg : ¬ ((fps.length : Int) ≤ target_count) := by
      omega
    have htz : (target_count - 1).toNat = 0 := by omega
    constructor
    · simp only [_exact_greedy_selection]
      rw [if_neg hneg, htz]
      rfl
    · simp only [_rolling_window_selection]
      rw [if_neg hneg, htz]
      rfl

/-- Closed instantiation of `C6_amended_only_method_validated`. -/
theorem C6_amended_only_method_validated_witness :
    (select_distinct hashA ["a", "b", "c"] 0 "fancy" 100 (mkRat 17 20) 42 0 =
      Except.error "ValueError: Unknown method" ∧
    ∀ (fps : List (List Bool)) (rng : RngState), (0 : Int) ≤ 0 →
      0 < fps.length →
      (_exact_greedy_selection fps 0 rng).length = 1 ∧
      (_rolling_window_selection fps 0 100 rng).length = 1) :=
  C6_amended_only_method_validated hashA ["a", "b", "c"] 0 100 (mkRat 17 20)
    42 0 "fancy" (by decide) (by decide)

/-!
## Claim C8: the distance function
-/

theorem bne_comm_bool (x y : Bool) : (x != y) = (y != x) := by
  cases x <;> cases y <;> rfl

theorem zip_countP_comm : ∀ a b : List Bool,
    ((a.zip b).countP fun p => p.1 != p.2) =
      ((b.zip a).countP fun p => p.1 != p.2) := by
  intro a
  induction a with
  | nil => intro b; cases b <;> rfl
  | cons x xs ih =>
    intro b
    cases b with
    | nil => rfl
    | cons y ys =>
      simp only [List.zip_cons_cons, List.countP_cons]
      rw [ih ys, bne_comm_bool]

theorem zip_self_countP : ∀ a : List Bool,
    ((a.zip a).countP fun p => p.1 != p.2) = 0 := by
  intro a
  induction a with
  | nil => rfl
  | cons x xs ih =>
    simp only [List.zip_cons_cons, List.countP_cons, ih]
    simp

theorem zip_countP_eq_range_countP : ∀ a b : List Bool, a.length = b.length →
    ((a.zip b).countP fun p => p.1 != p.2) =
      ((List.range a.length).countP fun i =>
        a.getD i false != b.getD i false) := by
  intro a
  induction a with
  | nil =>
    intro b hb
    rfl
  | cons x xs ih =>
    intro b hb
    cases b with
    | nil => simp at hb
    | cons y ys =>
      have hlen : xs.length = ys.length := by simpa using hb
      simp only [List.zip_cons_cons, List.countP_cons, List.length_cons,
        List.range_succ_eq_map, List.countP_map]
      rw [ih ys hlen]
      rfl

/-- Claim C8. For every pair of equal-length (nonempty) binary fingerprints, the
distance function returns the fraction of differing bit positions, a value in
`[0, 1]`; it is symmetric and zero on identical fingerprints.  (It is
deterministic because it is a pure function of its two arguments.)
-/
theorem C8_hamming_contract (a b : List Bool) (hlen : a.length = b.length)
    (hpos : 0 < a.length) :
    _hamming_distance a b =
        (((List.range a.length).countP fun i =>
          a.getD i false != b.getD i false : Nat) : ℚ) / (a.length : ℚ) ∧
      0 ≤ _hamming_distance a b ∧ _hamming_distance a b ≤ 1 ∧
      _hamming_distance a b = _hamming_distance b a ∧
      (a = b → _hamming_distance a b = 0) := by
  refine ⟨?_, hamming_nonneg a b, ?_, ?_, ?_⟩
  · rw [hamming_eq_div, zip_countP_eq_range_countP a b hlen]
  · rw [hamming_eq_div]
    rw [div_le_one (by exact_mod_cast hpos)]
    have hc : ((a.zip b).countP fun p => p.1 != p.2) ≤ a.length := by
      refine le_trans (List.countP_le_length _) ?_
      rw [List.length_zip, hlen, min_self]
    exact_mod_cast hc
  · unfold _hamming_distance
    rw [zip_countP_comm a b, hlen]
  · intro h
    subst h
    rw [hamming_eq_div, zip_self_countP]
    simp

/-- Closed instantiation of `C8_hamming_contract`. -/
theorem C8_hamming_contract_witness :
    _hamming_distance [true, false] [false, false] =
        (((List.range [true, false].length).countP fun i =>
          [true, false].getD i false != [false, false].getD i false : Nat) :
            ℚ) / ([true, false].length : ℚ) ∧
      0 ≤ _hamming_distance [true, false] [false, false] ∧
      _hamming_distance [true, false] [false, false] ≤ 1 ∧
      _hamming_distance [true, false] [false, false] =
        _hamming_distance [false, false] [true, false] ∧
      ([true, false] = [false, false] →
        _hamming_distance [true, false] [false, false] = 0) :=
  C8_hamming_contract [true, false] [false, false] (by decide) (by decide)

/-!
## Claim C7: mismatched fingerprint lengths
-/

theorem npArray2D_ragged (rows : List (List Bool))
    (h : ∃ a ∈ rows, ∃ b ∈ rows, a.length ≠ b.length) :
    npArray2D rows = Except.error "ValueError: inhomogeneous shape" := by
  unfold npArray2D
  rw [if_neg]
  intro hall
  obtain ⟨a, ha, b, hb, hne⟩ := h
  have hfa := List.all_eq_true.mp hall a ha
  have hfb := List.all_eq_true.mp hall b hb
  exact hne ((of_decide_eq_true hfa).trans (of_decide_eq_true hfb).symm)

/-- Claim C7. When the external hasher produces fingerprints of unequal lengths
(so that the call's fingerprint array is ragged) and neither short-circuit
applies, both entry points abort with the `np.array` conversion error before
any selection step runs: no selection output is produced and no distance over
mismatched-length fingerprints is computed.
-/
theorem C7_ragged_fingerprints_abort (phashFn : String → Option (List Bool))
    (image_paths : List String) (target_count window_size : Int)
    (similarity_threshold : ℚ) (random_seed : Int) (rng0 : RngState)
    (hsc1 : ¬ ((image_paths.length : Int) ≤ target_count))
    (hsc2e : ¬ (((_calculate_hashes phashFn image_paths).2.length : Int) ≤
      target_count))
    (hrage : ∃ a ∈ (_calculate_hashes phashFn image_paths).1,
      ∃ b ∈ (_calculate_hashes phashFn image_paths).1,
        a.length ≠ b.length)
    (hsc2r : ¬ (((_calculate_hashes phashFn
      (_sort_paths_by_directory image_paths)).2.length : Int) ≤ target_count))
    (hragr : ∃ a ∈ (_calculate_hashes phashFn
        (_sort_paths_by_directory image_paths)).1,
      ∃ b ∈ (_calculate_hashes phashFn
        (_sort_paths_by_directory image_paths)).1, a.length ≠ b.length) :
    _select_distinct_exact phashFn image_paths target_count
        similarity_threshold random_seed rng0 =
      Except.error "ValueError: inhomogeneous shape" ∧
    _select_distinct_rolling_window phashFn image_paths target_count
        window_size random_seed rng0 =
      Except.error "ValueError: inhomogeneous shape" := by
  constructor
  · unfold _select_distinct_exact
    rw [if_neg hsc1, if_neg hsc2e, npArray2D_ragged _ hrage]
  · unfold _select_distinct_rolling_window
    rw [if_neg hsc1, if_neg hsc2r, npArray2D_ragged _ hragr]

/-- A hash producer with inconsistent fingerprint lengths. -/
def hashRagged : String → Option (List Bool) :=
  fun p => some (if p = "a" then [true] else [true, true])

/-- Closed instantiation of `C7_ragged_fingerprints_abort`. -/
theorem C7_ragged_fingerprints_abort_witness :
    _select_distinct_exact hashRagged ["a", "b", "c"] 1 (mkRat 17 20) 42 0 =
      Except.error "ValueError: inhomogeneous shape" ∧
    _select_distinct_rolling_window hashRagged ["a", "b", "c"] 1 100 42 0 =
      Except.error "ValueError: inhomogeneous shape" :=
  C7_ragged_fingerprints_abort hashRagged ["a", "b", "c"] 1 100 (mkRat 17 20)
    42 0 (by decide) (by decide) (by decide) (by decide) (by decide)

/-!
## Path round-trips and the sort order
-/

theorem splitSlash_of_no_slash : ∀ g : List Char, '/' ∉ g →
    splitSlash g = [g] := by
  intro g
  induction g with
  | nil => intro _; rfl
  | cons c rest ih =>
    intro h
    have hc : c ≠ '/' := fun hh => h (hh ▸ List.mem_cons_self c rest)
    have hrest : '/' ∉ rest := fun hh => h (List.mem_cons_of_mem c hh)
    unfold splitSlash
    rw [if_neg hc, ih hrest]

theorem splitSlash_cons (c : Char) (rest : List Char) :
    splitSlash (c :: rest) =
      if c = '/' then [] :: splitSlash rest
      else
        match splitSlash rest with
        | [] => [[c]]
        | g :: gs => (c :: g) :: gs := rfl

theorem splitSlash_append_slash : ∀ (a b : List Char), '/' ∉ a →
    splitSlash (a ++ '/' :: b) = a :: splitSlash b := by
  intro a
  induction a with
  | nil =>
    intro b _
    show splitSlash ('/' :: b) = [] :: splitSlash b
    rw [splitSlash_cons, if_pos rfl]
  | cons c as ih =>
    intro b h
    have hc : c ≠ '/' := fun hh => h (hh ▸ List.mem_cons_self c as)
    have has : '/' ∉ as := fun hh => h (List.mem_cons_of_mem c hh)
    show splitSlash (c :: (as ++ '/' :: b)) = (c :: as) :: splitSlash b
    rw [splitSlash_cons, if_neg hc, ih b has]

theorem joinSlash_roundtrip : ∀ cs : List (List Char), NormalComps cs →
    cs ≠ [] → splitSlash (joinSlash cs) = cs := by
  intro cs
  induction cs with
  | nil => intro _ h; exact absurd rfl h
  | cons g rest ih =>
    intro hnorm _
    have hg : '/' ∉ g := (hnorm g (List.mem_cons_self g rest)).2.2
    cases rest with
    | nil => exact splitSlash_of_no_slash g hg
    | cons g' gs =>
      have hjoin : joinSlash (g :: g' :: gs) =
          g ++ '/' :: joinSlash (g' :: gs) := rfl
      rw [hjoin, splitSlash_append_slash g _ hg,
        ih (fun x hx => hnorm x (List.mem_cons_of_mem g hx))
          (List.cons_ne_nil g' gs)]

theorem parsePath_pathToString : ∀ cs : List (List Char), NormalComps cs →
    parsePath (pathToString cs) = cs := by
  intro cs hnorm
  cases cs with
  | nil => decide
  | cons g gs =>
    have hne : (g :: gs : List (List Char)) ≠ [] := List.cons_ne_nil g gs
    unfold pathToString
    rw [if_neg hne]
    unfold parsePath
    have hdata : (String.mk (joinSlash (g :: gs))).data =
        joinSlash (g :: gs) := rfl
    rw [hdata, joinSlash_roundtrip _ hnorm hne]
    refine List.filter_eq_self.mpr ?_
    intro comp hcomp
    exact decide_eq_true ⟨(hnorm comp hcomp).1, (hnorm comp hcomp).2.1⟩

theorem parsePyPath_pathToString (p : PyPath) :
    parsePyPath (pathToString p.1) = p :=
  Subtype.ext (parsePath_pathToString p.1 p.2)

theorem pathToString_inj {cs ds : List (List Char)} (h1 : NormalComps cs)
    (h2 : NormalComps ds) (h : pathToString cs = pathToString ds) :
    cs = ds := by
  have hp := congrArg parsePath h
  rwa [parsePath_pathToString cs h1, parsePath_pathToString ds h2] at hp

theorem string_data_inj {s t : String} (h : s.data = t.data) : s = t := by
  cases s
  cases t
  exact congrArg String.mk h

theorem getLastD_mem : ∀ (l : List (List Char)) (d : List Char), l ≠ [] →
    l.getLastD d ∈ l := by
  intro l
  induction l with
  | nil => intro d h; exact absurd rfl h
  | cons a rest ih =>
    intro d _
    cases rest with
    | nil => simp
    | cons b bs =>
      rw [List.getLastD_cons]
      exact List.mem_cons_of_mem a (ih a (List.cons_ne_nil b bs))

theorem dropLast_append_getLastD : ∀ (l : List (List Char)) (d : List Char),
    l ≠ [] → l.dropLast ++ [l.getLastD d] = l := by
  intro l
  induction l with
  | nil => intro d h; exact absurd rfl h
  | cons a rest ih =>
    intro d _
    cases rest with
    | nil => simp
    | cons b bs =>
      rw [List.getLastD_cons, List.dropLast_cons₂, List.cons_append,
        ih a (List.cons_ne_nil b bs)]

theorem normalComps_dropLast {cs : List (List Char)} (h : NormalComps cs) :
    NormalComps cs.dropLast :=
  fun x hx => h x ((List.dropLast_sublist cs).subset hx)

/-- The sort key `(str(p.parent), p.name)` determines the parsed path. -/
theorem pyKey_inj (p q : PyPath) (hpar : pyParent p = pyParent q)
    (hname : pyName p = pyName q) : p = q := by
  obtain ⟨cs, hcs⟩ := p
  obtain ⟨ds, hds⟩ := q
  apply Subtype.ext
  show cs = ds
  have hname' : cs.getLastD [] = ds.getLastD [] := hname
  have hpar' : pathToString cs.dropLast = pathToString ds.dropLast :=
    string_data_inj hpar
  have hdl : cs.dropLast = ds.dropLast :=
    pathToString_inj (normalComps_dropLast hcs) (normalComps_dropLast hds)
      hpar'
  by_cases hc : cs = []
  · by_cases hd : ds = []
    · rw [hc, hd]
    · exfalso
      have hne := (hds _ (getLastD_mem ds [] hd)).1
      rw [hc] at hname'
      exact hne hname'.symm
  · by_cases hd : ds = []
    · exfalso
      have hne := (hcs _ (getLastD_mem cs [] hc)).1
      rw [hd] at hname'
      exact hne hname'
    · rw [← dropLast_append_getLastD cs [] hc,
        ← dropLast_append_getLastD ds [] hd, hdl, hname']

instance pathKeyLeTotal : IsTotal PyPath pathKeyLe :=
  ⟨fun p q => by
    rcases lt_trichotomy (pyParent p) (pyParent q) with h | h | h
    · exact Or.inl (Or.inl h)
    · rcases le_total (pyName p) (pyName q) with h' | h'
      · exact Or.inl (Or.inr ⟨h, h'⟩)
      · exact Or.inr (Or.inr ⟨h.symm, h'⟩)
    · exact Or.inr (Or.inl h)⟩

instance pathKeyLeTrans : IsTrans PyPath pathKeyLe :=
  ⟨fun p q r hpq hqr => by
    rcases hpq with h1 | ⟨h1, h1'⟩ <;> rcases hqr with h2 | ⟨h2, h2'⟩
    · exact Or.inl (lt_trans h1 h2)
    · exact Or.inl (h2 ▸ h1)
    · exact Or.inl (h1 ▸ h2)
    · exact Or.inr ⟨h1.trans h2, le_trans h1' h2'⟩⟩

instance pathKeyLeAntisymm : IsAntisymm PyPath pathKeyLe :=
  ⟨fun p q hpq hqp => by
    rcases hpq with h1 | ⟨h1, h1'⟩ <;> rcases hqp with h2 | ⟨h2, h2'⟩
    · exact absurd (lt_trans h1 h2) (lt_irrefl _)
    · exact absurd (h2 ▸ h1) (lt_irrefl _)
    · exact absurd (h1 ▸ h2) (lt_irrefl _)
    · exact pyKey_inj p q h1 (le_antisymm h1' h2')⟩

/-- Sorting is a permutation: `_sort_paths_by_directory` returns the pathlib-normalized
input identifiers. -/
theorem sort_paths_perm (paths : List String) :
    (_sort_paths_by_directory paths).Perm
      (paths.map fun s => pathToString (parsePath s)) := by
  unfold _sort_paths_by_directory
  have h := (List.perm_insertionSort pathKeyLe (paths.map parsePyPath)).map
    fun p : PyPath => pathToString p.1
  refine h.trans ?_
  rw [List.map_map]
  exact List.Perm.refl _

/-- Two permuted input lists sort to the *same* path list: the sort key
determines the element, so the sorted-by-key permutation is unique. -/
theorem sort_paths_eq_of_perm {paths paths' : List String}
    (h : paths.Perm paths') :
    _sort_paths_by_directory paths = _sort_paths_by_directory paths' := by
  unfold _sort_paths_by_directory
  congr 1
  refine List.eq_of_perm_of_sorted ?_
    (List.sorted_insertionSort pathKeyLe (paths.map parsePyPath))
    (List.sorted_insertionSort pathKeyLe (paths'.map parsePyPath))
  exact (List.perm_insertionSort pathKeyLe (paths.map parsePyPath)).trans
    ((h.map parsePyPath).trans
      (List.perm_insertionSort pathKeyLe (paths'.map parsePyPath)).symm)

/-!
## Claims C9 and C10: identifiers and ordering
-/

theorem calculate_hashes_lengths (phashFn : String → Option (List Bool)) :
    ∀ paths : List String,
      (_calculate_hashes phashFn paths).1.length =
        (_calculate_hashes phashFn paths).2.length := by
  intro paths
  induction paths with
  | nil => rfl
  | cons p rest ih =>
    unfold _calculate_hashes
    cases phashFn p <;> simpa using ih

theorem calculate_hashes_subset (phashFn : String → Option (List Bool)) :
    ∀ paths : List String, ∀ x ∈ (_calculate_hashes phashFn paths).2,
      x ∈ paths := by
  intro paths
  induction paths with
  | nil => intro x hx; exact absurd hx (by simp [_calculate_hashes])
  | cons p rest ih =>
    intro x hx
    unfold _calculate_hashes at hx
    cases hf : phashFn p
    · rw [hf] at hx
      exact List.mem_cons_of_mem p (ih x hx)
    · rw [hf] at hx
      rcases List.mem_cons.mp hx with h | h
      · exact h ▸ List.mem_cons_self p rest
      · exact List.mem_cons_of_mem p (ih x h)

theorem exact_selection_indices_lt (fps : List (List Bool)) (target : Int)
    (rng : RngState) (h0 : 0 ≤ target) :
    ∀ i ∈ _exact_greedy_selection fps target rng, i < fps.length := by
  by_cases hc : (fps.length : Int) ≤ target
  · simp only [_exact_greedy_selection]
    rw [if_pos hc]
    intro i hi
    exact List.mem_range.mp hi
  · have hn : 0 < fps.length := by omega
    have h := engine_run_bounds (exactScore fps)
      (fun sel c => neg_one_lt_minDistanceTo fps c sel)
      fps.length target rng hn (by omega)
    simp only [_exact_greedy_selection]
    rw [if_neg hc]
    exact h.2.2

theorem rolling_selection_indices_lt (fps : List (List Bool))
    (target window_size : Int) (rng : RngState) (h0 : 0 ≤ target) :
    ∀ i ∈ _rolling_window_selection fps target window_size rng,
      i < fps.length := by
  by_cases hc : (fps.length : Int) ≤ target
  · simp only [_rolling_window_selection]
    rw [if_pos hc]
    intro i hi
    exact List.mem_range.mp hi
  · have hn : 0 < fps.length := by omega
    have h := engine_run_bounds (rollingScore fps window_size)
      (fun sel c => neg_one_lt_minDistanceTo fps c
        (sel.drop (sel.length - window_size.toNat)))
      fps.length target rng hn (by omega)
    simp only [_rolling_window_selection]
    rw [if_neg hc]
    exact h.2.2

/-- Claim C9, counterexample. In rolling-window mode the returned identifiers are
`pathlib`-normalized: with the caller-supplied identifier `"d//b.jpg"` (double
separator) in the pool, the returned list contains `"d/b.jpg"`, which is not
character-for-character identical to any caller-supplied input.
-/
theorem C9_rolling_normalizes_counterexample :
    select_distinct demoHash ["d//b.jpg", "d/a.jpg", "d/c.jpg"] 2
        "rolling_window" 100 (mkRat 17 20) 42 0 =
      Except.ok ["d/a.jpg", "d/b.jpg"] ∧
    "d/b.jpg" ∈ (["d/a.jpg", "d/b.jpg"] : List String) ∧
    "d/b.jpg" ∉ (["d//b.jpg", "d/a.jpg", "d/c.jpg"] : List String) := by
  decide

/-- Claim C9, amended. In exact mode (and on every short-circuit path) each
returned entry is character-for-character one of the caller-supplied input
identifiers.  In rolling-window mode each returned entry is either one of the
inputs (short-circuit) or the `pathlib`-normalized string form of one of the
inputs (`str(Path(p))`, which e.g. collapses duplicate separators), in
correspondence with them — never any other derived form.
-/
theorem C9_amended_output_identifiers (phashFn : String → Option (List Bool))
    (image_paths : List String) (target_count window_size : Int)
    (similarity_threshold : ℚ) (random_seed : Int) (rng0 : RngState)
    (h0 : 0 ≤ target_count) :
    (∀ out, _select_distinct_exact phashFn image_paths target_count
        similarity_threshold random_seed rng0 = Except.ok out →
      ∀ x ∈ out, x ∈ image_paths) ∧
    (∀ out, _select_distinct_rolling_window phashFn image_paths target_count
        window_size random_seed rng0 = Except.ok out →
      ∀ x ∈ out, x ∈ image_paths ∨
        x ∈ image_paths.map fun s => pathToString (parsePath s)) := by
  constructor
  · intro out hout x hx
    unfold _select_distinct_exact at hout
    by_cases hsc1 : (image_paths.length : Int) ≤ target_count
    · rw [if_pos hsc1] at hout
      rw [← Except.ok.inj hout] at hx
      exact hx
    · rw [if_neg hsc1] at hout
      by_cases hsc2 : (((_calculate_hashes phashFn image_paths).2.length :
          Int) ≤ target_count)
      · rw [if_pos hsc2] at hout
        rw [← Except.ok.inj hout] at hx
        exact calculate_hashes_subset phashFn image_paths x hx
      · rw [if_neg hsc2] at hout
        unfold npArray2D at hout
        by_cases hhom : ((_calculate_hashes phashFn image_paths).1.all
            fun r => r.length =
              (((_calculate_hashes phashFn image_paths).1.headD []).length))
        · rw [if_pos hhom] at hout
          rw [← Except.ok.inj hout] at hx
          obtain ⟨i, hi, hxi⟩ := List.mem_map.mp hx
          have hlt : i < (_calculate_hashes phashFn image_paths).2.length := by
            rw [← calculate_hashes_lengths phashFn image_paths]
            exact exact_selection_indices_lt _ target_count _ h0 i hi
          rw [← hxi, List.getD_eq_getElem _ _ hlt]
          exact calculate_hashes_subset phashFn image_paths _
            (List.getElem_mem hlt)
        · rw [if_neg hhom] at hout
          exact absurd hout (by simp)
  · intro out hout x hx
    unfold _select_distinct_rolling_window at hout
    by_cases hsc1 : (image_paths.length : Int) ≤ target_count
    · rw [if_pos hsc1] at hout
      rw [← Except.ok.inj hout] at hx
      exact Or.inl hx
    · rw [if_neg hsc1] at hout
      refine Or.inr ?_
      have hsortmem : ∀ y, y ∈ _sort_paths_by_directory image_paths →
          y ∈ image_paths.map fun s => pathToString (parsePath s) :=
        fun y hy => (sort_paths_perm image_paths).mem_iff.mp hy
      by_cases hsc2 : (((_calculate_hashes phashFn
          (_sort_paths_by_directory image_paths)).2.length : Int) ≤
            target_count)
      · rw [if_pos hsc2] at hout
        rw [← Except.ok.inj hout] at hx
        exact hsortmem x (calculate_hashes_subset phashFn _ x hx)
      · rw [if_neg hsc2] at hout
        unfold npArray2D at hout
        by_cases hhom : ((_calculate_hashes phashFn
            (_sort_paths_by_directory image_paths)).1.all
            fun r => r.length =
              (((_calculate_hashes phashFn
                (_sort_paths_by_directory image_paths)).1.headD []).length))
        · rw [if_pos hhom] at hout
          rw [← Except.ok.inj hout] at hx
          obtain ⟨i, hi, hxi⟩ := List.mem_map.mp hx
          have hlt : i < (_calculate_hashes phashFn
              (_sort_paths_by_directory image_paths)).2.length := by
            rw [← calculate_hashes_lengths phashFn]
            exact rolling_selection_indices_lt _ target_count window_size _
              h0 i hi
          rw [← hxi, List.getD_eq_getElem _ _ hlt]
          exact hsortmem _ (calculate_hashes_subset phashFn _ _
            (List.getElem_mem hlt))
        · rw [if_neg hhom] at hout
          exact absurd hout (by simp)

/-- Closed instantiation of `C9_amended_output_identifiers`. -/
theorem C9_amended_output_identifiers_witness :
    (∀ out, _select_distinct_exact demoHash
        ["d//b.jpg", "d/a.jpg", "d/c.jpg"] 2 (mkRat 17 20) 42 0 =
          Except.ok out →
      ∀ x ∈ out, x ∈ (["d//b.jpg", "d/a.jpg", "d/c.jpg"] : List String)) ∧
    (∀ out, _select_distinct_rolling_window demoHash
        ["d//b.jpg", "d/a.jpg", "d/c.jpg"] 2 100 42 0 = Except.ok out →
      ∀ x ∈ out, x ∈ (["d//b.jpg", "d/a.jpg", "d/c.jpg"] : List String) ∨
        x ∈ (["d//b.jpg", "d/a.jpg", "d/c.jpg"] : List String).map
          fun s => pathToString (parsePath s)) :=
  C9_amended_output_identifiers demoHash ["d//b.jpg", "d/a.jpg", "d/c.jpg"]
    2 100 (mkRat 17 20) 42 0 (by norm_num)

/-- Claim C10. In rolling-window mode (and only that mode), when the short-circuit
does not apply, the inputs are first sorted by the key
`(str(p.parent), p.name)` before hashing and selection:
(1) the rolling-window entry point is invariant under permuting the input
list (every order-dependent downstream step sees the same sorted sequence);
(2) `_sort_paths_by_directory` returns a permutation of the normalized inputs
that is sorted by that key;
(3) exact mode performs no such sorting: it is *not* permutation-invariant —
swapping two inputs changes its output on a concrete pool.
-/
theorem C10_rolling_sorted_exact_original_order :
    (∀ (phashFn : String → Option (List Bool)) (paths paths' : List String)
      (target_count window_size random_seed : Int) (rng0 rng1 : RngState),
      paths.Perm paths' → ¬ ((paths.length : Int) ≤ target_count) →
      _select_distinct_rolling_window phashFn paths target_count window_size
          random_seed rng0 =
        _select_distinct_rolling_window phashFn paths' target_count
          window_size random_seed rng1) ∧
    (∀ paths : List String, (_sort_paths_by_directory paths).Perm
      (paths.map fun s => pathToString (parsePath s))) ∧
    (∀ paths : List String, (_sort_paths_by_directory paths).Pairwise
      fun s t => pathKeyLe (parsePyPath s) (parsePyPath t)) ∧
    _select_distinct_exact hashA ["b", "a"] 1 (mkRat 17 20) 42 0 ≠
      _select_distinct_exact hashA ["a", "b"] 1 (mkRat 17 20) 42 0 := by
  refine ⟨?_, sort_paths_perm, ?_, by decide⟩
  · intro phashFn paths paths' target_count window_size random_seed rng0 rng1
      hperm hsc
    have hlen : paths.length = paths'.length := hperm.length_eq
    have hsc' : ¬ ((paths'.length : Int) ≤ target_count) := by
      rw [← hlen]; exact hsc
    simp only [_select_distinct_rolling_window]
    rw [if_neg hsc, if_neg hsc', sort_paths_eq_of_perm hperm]
  · intro paths
    unfold _sort_paths_by_directory
    refine List.Pairwise.map _ ?_
      (List.sorted_insertionSort pathKeyLe (paths.map parsePyPath))
    intro a b hab
    rw [parsePyPath_pathToString a, parsePyPath_pathToString b]
    exact hab

/-- Closed instantiation of `C10_rolling_sorted_exact_original_order`:
rolling-window mode gives the same output on a transposed input list (and,
per the final conjunct of the theorem itself, exact mode does not). -/
theorem C10_rolling_sorted_exact_original_order_witness :
    _select_distinct_rolling_window hashA ["b", "a"] 1 100 42 0 =
      _select_distinct_rolling_window hashA ["a", "b"] 1 100 42 7 :=
  C10_rolling_sorted_exact_original_order.1 hashA ["b", "a"] ["a", "b"]
    1 100 42 0 7 (by decide) (by decide)
